import Mathlib

/-!
ZINI (minimalistic INI store, Multi-File draft): a shallow embedding of
`src/Multi-File/zini.c` / `zini.h`, with correctness theorems about it.

Modelling conventions:
* C strings (`char[...]` buffers, NUL-terminated) are modelled as `List Char`
  (`Str`); embedded NUL characters are out of scope.
* `strncpy(dst, src, N-1); dst[N-1] = 0` is `Str.take (N-1)`.
* The growable `sections` / `pairs` arrays with their counts are Lean lists;
  `sectionCount` / `pairCount` are the list lengths.
* A `Section*` held by a caller (e.g. `currentSection` in `ZINI_Open`) is an
  index into the document's section list.
* File contents are a single `Str` (the bytes of the file); the `fgets` +
  `strcspn(line, "\n")` loop of `ZINI_Open` is modelled by splitting the
  contents at `'\n'` (faithful for lines shorter than `MAX_LINE_LENGTH`,
  which holds for every line the library itself produces, since keys, values
  and names are bounded by 128).
* `FILE*` sinks are the produced `Str`; a destination that cannot be opened
  is the boolean `destOpens = false`.
* Null pointers, where a claim depends on them, are `Option` arguments; a
  C execution that dereferences a null pointer (undefined behaviour) is the
  result `none` of the `...C` variants.
-/

namespace ZINI

abbrev Str := List Char

def MAX_SECTION_LENGTH : Nat := 128

def MAX_KEY_LENGTH : Nat := 128

def MAX_VALUE_LENGTH : Nat := 128

def MAX_LINE_LENGTH : Nat := MAX_KEY_LENGTH + MAX_VALUE_LENGTH + 2

/-- C struct `INIKeyValuePair`. -/
structure Pair where
  key : Str
  value : Str
deriving Repr, DecidableEq

/-- C struct `INISection` (`pairCount` is `pairs.length`). -/
structure Section where
  sectionName : Str
  pairs : List Pair
deriving Repr, DecidableEq

/-- C struct `INIFILE` (`sectionCount` is `sections.length`). -/
structure INIFILE where
  sections : List Section
  isModified : Bool
deriving Repr, DecidableEq

/-- Model of `ZINI_Init`: empty section array, count 0, not modified. -/
def ZINI_Init : INIFILE := { sections := [], isModified := false }

/-- Model of `ZINI_AddSection` (success path: non-null arguments, allocation succeeds):
appends a section whose name is the argument truncated to
`MAX_SECTION_LENGTH - 1` characters, with no pairs, and sets `isModified`.
Returns the new document and the index of the new section (the returned
`Section*`). -/
def ZINI_AddSection (doc : INIFILE) (name : Str) : INIFILE × Nat :=
  ({ sections := doc.sections ++
      [{ sectionName := name.take (MAX_SECTION_LENGTH - 1), pairs := [] }],
     isModified := true },
   doc.sections.length)

/-- Model of `ZINI_AddPair` (success path): appends a pair with key and value truncated
to their bounds. Acts on the pointed-to section only; the document's
`isModified` flag is not touched by the C function. -/
def ZINI_AddPair (s : Section) (key value : Str) : Section :=
  { s with pairs := s.pairs ++
      [{ key := key.take (MAX_KEY_LENGTH - 1),
         value := value.take (MAX_VALUE_LENGTH - 1) }] }

/-- Replace the section at index `i` by `f` of it (identity out of range):
the effect, on the owning document, of calling a `Section*`-taking function
on `&doc.sections[i]`. -/
def updateSec (f : Section → Section) : List Section → Nat → List Section
  | [], _ => []
  | s :: rest, 0 => f s :: rest
  | s :: rest, n + 1 => s :: updateSec f rest n

/-- Effect of `ZINI_AddPair` called on `&doc.sections[i]`, seen from the document. -/
def docAddPair (doc : INIFILE) (i : Nat) (key value : Str) : INIFILE :=
  { doc with sections := updateSec (fun s => ZINI_AddPair s key value) doc.sections i }

/-- Linear scan of the section array, first exact name match wins. -/
def findSecIdx (name : Str) : List Section → Option Nat
  | [] => none
  | s :: rest =>
    if s.sectionName = name then some 0
    else (findSecIdx name rest).map (· + 1)

/-- Model of `ZINI_FindSection` (non-null arguments): index of the first section whose
name equals the argument (`strcmp == 0`), scanning in insertion order. -/
def ZINI_FindSection (doc : INIFILE) (name : Str) : Option Nat :=
  findSecIdx name doc.sections

/-- Model of `ZINI_GetValue` (non-null arguments): value of the first pair whose key
matches, else null (`none`). -/
def ZINI_GetValue (s : Section) (key : Str) : Option Str :=
  (s.pairs.find? (fun p => p.key = key)).map Pair.value

/-- Model of `ZINI_KeyExists` (non-null arguments). -/
def ZINI_KeyExists (s : Section) (key : Str) : Bool :=
  s.pairs.any (fun p => p.key = key)

/-- Model of `ZINI_RemovePair` (non-null arguments): clears key AND value of every
matching pair to the empty string, leaving the slot in place. -/
def ZINI_RemovePair (s : Section) (key : Str) : Section :=
  { s with pairs := s.pairs.map (fun p =>
      if p.key = key then { key := [], value := [] } else p) }

/-- Model of `ZINI_SetValue` (non-null section, key and new value): the loop has no
`break`, so it overwrites the value of EVERY pair whose key matches with the
new value truncated to the bound. -/
def ZINI_SetValue (s : Section) (key newValue : Str) : Section :=
  { s with pairs := s.pairs.map (fun p =>
      if p.key = key then { p with value := newValue.take (MAX_VALUE_LENGTH - 1) } else p) }

/-- Model of `ZINI_SetValue` with a possibly-null `newValue` (the C function checks
`section` and `key` for null but NOT `newValue`): if some pair matches the
key, `strncpy` reads from the null pointer — undefined behaviour, `none`;
with no match the loop never touches `newValue` and the call is a no-op. -/
def ZINI_SetValueC (s : Section) (key : Str) (newValue : Option Str) : Option Section :=
  match newValue with
  | some v => some (ZINI_SetValue s key v)
  | none => if s.pairs.any (fun p => p.key = key) then none else some s

/-- Model of `ZINI_Clean` (non-null document): frees pair and section storage and
resets `sections` to null and `sectionCount` to 0. The C function does NOT
touch `isModified` (it only reads it for the warning). -/
def ZINI_Clean (doc : INIFILE) : INIFILE :=
  { sections := [], isModified := doc.isModified }

/-- The warning `ZINI_Clean` prints ("INI file was modified but not saved!")
is emitted exactly when `isModified` is set. -/
def cleanWarns (doc : INIFILE) : Bool := doc.isModified

/-- The bytes `fprintf(stream, "%s=%s\n", key, value)` contributes for the
pairs of one section: a pair is printed iff its key or value is non-empty. -/
def printPairs : List Pair → Str
  | [] => []
  | p :: rest =>
    (if p.key = [] ∧ p.value = [] then [] else p.key ++ '=' :: p.value ++ ['\n'])
      ++ printPairs rest

/-- The bytes one section contributes to `ZINI_Print`: skipped entirely when
the name is empty (tombstoned section), else `[name]\n`, the pair lines, and
a blank line. -/
def printSec (s : Section) : Str :=
  if s.sectionName = [] then []
  else '[' :: s.sectionName ++ ']' :: '\n' :: printPairs s.pairs ++ ['\n']

/-- Concatenate the sections' output. -/
def printSecs : List Section → Str
  | [] => []
  | s :: rest => printSec s ++ printSecs rest

/-- Model of `ZINI_Print` (non-null arguments): the bytes written to the stream. -/
def ZINI_Print (doc : INIFILE) : Str := printSecs doc.sections

/-- Result of `ZINI_Save`: final document, returned boolean, bytes written
to the destination (none when it could not be opened). -/
structure SaveResult where
  doc : INIFILE
  ret : Bool
  written : Option Str
deriving Repr, DecidableEq

/-- Model of `ZINI_Save` on a non-null document: if the destination does not open,
report and return false with the document untouched; else write
`ZINI_Print`'s bytes, clear `isModified` and return true. -/
def ZINI_Save (doc : INIFILE) (destOpens : Bool) : SaveResult :=
  if destOpens then
    { doc := { doc with isModified := false }, ret := true, written := some (ZINI_Print doc) }
  else
    { doc := doc, ret := false, written := none }

/-- Model of `ZINI_Save` as written, with a possibly-null document: the C function has
NO null check on `iniFile`. With a null document and an openable destination,
`ZINI_Print` (which does check) reports and returns, but then
`iniFile->isModified = false` dereferences the null pointer: undefined
behaviour, modelled as `none`. -/
def ZINI_SaveC (doc : Option INIFILE) (destOpens : Bool) :
    Option (Option INIFILE × Bool × Option Str) :=
  match doc, destOpens with
  | _, false => some (doc, false, none)
  | some d, true =>
    some (some { d with isModified := false }, true, some (ZINI_Print d))
  | none, true => none

/-! ## `ZINI_Open`: parsing -/

/-- Split at the first occurrence of `ch` (`strchr` + `*p = '\0'`):
`some (before, after)` when `ch` occurs, `none` otherwise. -/
def splitAtChar (ch : Char) : Str → Option (Str × Str)
  | [] => none
  | c :: rest =>
    if c = ch then some ([], rest)
    else (splitAtChar ch rest).map (fun pr => (c :: pr.1, pr.2))

/-- Split file contents into the lines the `fgets` + `strcspn` loop sees. -/
def splitLines : Str → List Str
  | [] => [[]]
  | c :: rest =>
    if c = '\n' then [] :: splitLines rest
    else
      match splitLines rest with
      | [] => [[c]]
      | l :: ls => (c :: l) :: ls

/-- Parser state: the document and `currentSection` (an index, or null). -/
abbrev ParseState := INIFILE × Option Nat

/-- Resolution of a parsed header name: matched against ALL existing
sections (tombstoned ones included), reusing the first match and otherwise
appending via `ZINI_AddSection`. -/
def headerName (st : ParseState) (name : Str) : ParseState :=
  match ZINI_FindSection st.1 name with
  | some i => (st.1, some i)
  | none => ((ZINI_AddSection st.1 name).1, some (ZINI_AddSection st.1 name).2)

/-- The header branch of `ZINI_Open`'s loop, on the text after the `[`. -/
def headerStep (st : ParseState) (rest : Str) : ParseState :=
  match splitAtChar ']' rest with
  | none => st
  | some (name, _) => headerName st name

/-- The key/value branch of `ZINI_Open`'s loop, on the whole line. -/
def kvStep (st : ParseState) (line : Str) : ParseState :=
  match splitAtChar '=' line with
  | none => st
  | some (key, value) =>
    match st.2 with
    | none => st
    | some i => (docAddPair st.1 i key value, some i)

/-- One iteration of the `ZINI_Open` loop on a (newline-stripped) line:
skip empty and `;` lines; a line starting with `[` is a header; any other
line is treated as a key/value candidate. -/
def processLine (st : ParseState) (line : Str) : ParseState :=
  match line with
  | [] => st
  | c :: rest =>
    if c = ';' then st
    else if c = '[' then headerStep st rest
    else kvStep st (c :: rest)

/-- Run the parse loop over a list of lines. -/
def parseLines (st : ParseState) (lines : List Str) : ParseState :=
  lines.foldl processLine st

/-- What `fopen(filename, "r")` finds at the path. -/
inductive Source where
  /-- `fopen` fails with `errno == ENOENT`. -/
  | missing : Source
  /-- `fopen` fails with any other errno. -/
  | unreadable : Source
  /-- the file exists with these contents. -/
  | present (contents : Str) : Source
deriving Repr, DecidableEq

/-- Model of `ZINI_Open` (non-null document and filename): a missing file is success
with the document untouched; any other open failure is reported and returns
false, document untouched; otherwise the lines are parsed into the document
starting with no current section. -/
def ZINI_Open (doc : INIFILE) (src : Source) : INIFILE × Bool :=
  match src with
  | .missing => (doc, true)
  | .unreadable => (doc, false)
  | .present contents => ((parseLines (doc, none) (splitLines contents)).1, true)

/-! Documents built purely from `ZINI_AddSection` / `ZINI_AddPair` calls. -/

/-- One building call: add a section, or add a pair to the section at index
`i` (the `Section*` the caller holds). -/
inductive Cmd where
  | addSection (name : Str) : Cmd
  | addPair (i : Nat) (key value : Str) : Cmd
deriving Repr, DecidableEq

/-- Apply one building call. -/
def buildStep (doc : INIFILE) : Cmd → INIFILE
  | .addSection n => (ZINI_AddSection doc n).1
  | .addPair i k v => docAddPair doc i k v

/-- Build a document from a fresh `ZINI_Init` by a list of calls. -/
def build (cmds : List Cmd) : INIFILE := cmds.foldl buildStep ZINI_Init

/-- Section names that survive a print/parse round trip unchanged:
non-empty, within the bound, no newline and no `]`. -/
def wfName (n : Str) : Prop :=
  n ≠ [] ∧ n.length ≤ MAX_SECTION_LENGTH - 1 ∧ '\n' ∉ n ∧ ']' ∉ n

/-- Pairs whose printed line `key=value` parses back to the same pair:
key non-empty, within bound, no `=` or newline, not starting a comment or a
header; value within bound, no newline. -/
def wfPair (p : Pair) : Prop :=
  p.key ≠ [] ∧ p.key.length ≤ MAX_KEY_LENGTH - 1 ∧ '\n' ∉ p.key ∧ '=' ∉ p.key ∧
  p.key.head? ≠ some ';' ∧ p.key.head? ≠ some '[' ∧
  p.value.length ≤ MAX_VALUE_LENGTH - 1 ∧ '\n' ∉ p.value

/-- Wellformed section: wellformed name, wellformed pairs. -/
def wfSec (s : Section) : Prop :=
  wfName s.sectionName ∧ ∀ p ∈ s.pairs, wfPair p

/-- Wellformedness of one build call. -/
def wfCmd : Cmd → Prop
  | .addSection n => wfName n
  | .addPair _ k v => wfPair ⟨k, v⟩

/-- Names of sections the command list adds, in order. -/
def cmdNames : List Cmd → List Str
  | [] => []
  | .addSection n :: rest => n :: cmdNames rest
  | .addPair _ _ _ :: rest => cmdNames rest

/-- Names of a section list. -/
def namesOf (l : List Section) : List Str := l.map Section.sectionName

/-- The newline-stripped line `key=value` of a pair. -/
def pairLine (p : Pair) : Str := p.key ++ '=' :: p.value

/-- Lines of a list of pairs. -/
def pairLines (ps : List Pair) : List Str := ps.map pairLine

/-- The header line for a section name. -/
def headerLine (n : Str) : Str := '[' :: (n ++ [']'])

/-- The lines `ZINI_Print` produces for one (non-tombstoned) section:
header, pair lines, blank separator. -/
def secLines (s : Section) : List Str :=
  headerLine s.sectionName :: pairLines s.pairs ++ [[]]

/-- Lines of a section list. -/
def secsLines : List Section → List Str
  | [] => []
  | s :: rest => secLines s ++ secsLines rest

/-- Append a parsed section to a document, setting the modified flag: the
net effect of the parser meeting a fresh header and its pair lines. -/
def appendSec (doc : INIFILE) (s : Section) : INIFILE :=
  { sections := doc.sections ++ [s], isModified := true }

/-- Append pairs to the section at index `i`. -/
def appendPairsAt (doc : INIFILE) (i : Nat) (ps : List Pair) : INIFILE :=
  { doc with sections := updateSec (fun s => { s with pairs := s.pairs ++ ps }) doc.sections i }

/-- Append pairs and set the flag: net effect of the parser consuming the
line blocks of a section list. -/
def appendSecs (doc : INIFILE) (secs : List Section) : INIFILE :=
  { sections := doc.sections ++ secs, isModified := doc.isModified || !secs.isEmpty }

/-- Current-section index after the parser consumed the line blocks of
`secs` starting from a document with `base` sections. -/
def curAfter (cur : Option Nat) (base : Nat) (secs : List Section) : Option Nat :=
  if secs.isEmpty then cur else some (base + secs.length - 1)

/-- Wellformed document contents: wellformed sections with pairwise
distinct names. -/
def wfDocSecs (doc : INIFILE) : Prop :=
  (∀ s ∈ doc.sections, wfSec s) ∧ (namesOf doc.sections).Nodup

/-- Source text with two headers of the same name, each followed by its
key/value lines (the merge-on-reparse scenario). -/
def twoHeaderText (X : Str) (ps1 ps2 : List Pair) : Str :=
  ('[' :: X ++ ']' :: '\n' :: printPairs ps1) ++ ('[' :: X ++ ']' :: '\n' :: printPairs ps2)

instance decWfName (n : Str) : Decidable (wfName n) := by
  unfold wfName
  infer_instance

instance decWfPair (p : Pair) : Decidable (wfPair p) := by
  unfold wfPair
  infer_instance

instance decWfSec (s : Section) : Decidable (wfSec s) := by
  unfold wfSec
  infer_instance

instance decWfCmd : (c : Cmd) → Decidable (wfCmd c)
  | .addSection n => inferInstanceAs (Decidable (wfName n))
  | .addPair _ k v => inferInstanceAs (Decidable (wfPair ⟨k, v⟩))

/-! Concrete sample data for witnesses and counterexamples. -/

/-- Sample section holding one pair `a=1`. -/
def sampleSec : Section := { sectionName := ['S'], pairs := [⟨['a'], ['1']⟩] }

/-- Sample section with a duplicated key `k`. -/
def dupKeySec : Section :=
  { sectionName := ['S'], pairs := [⟨['k'], ['a']⟩, ⟨['k'], ['b']⟩] }

/-- Sample section with an empty-keyed but non-empty-valued pair before a
real one. -/
def emptyKeySec : Section :=
  { sectionName := ['S'], pairs := [⟨[], ['x']⟩, ⟨['a'], ['1']⟩] }

/-- Sample section for the null-`newValue` probe. -/
def nullProbeSec : Section := { sectionName := ['S'], pairs := [⟨['k'], ['v']⟩] }

/-- Build calls producing two sections that share the name `A`. -/
def dupSecCmds : List Cmd :=
  [.addSection ['A'], .addPair 0 ['k'] ['1'], .addSection ['A'], .addPair 1 ['j'] ['2']]

/-- Build calls with distinct wellformed names and keys. -/
def okCmds : List Cmd := [.addSection ['A'], .addPair 0 ['k'] ['v']]

/-- Document that already holds two sections named `X`. -/
def twoXDoc : INIFILE := (ZINI_AddSection (ZINI_AddSection ZINI_Init ['X']).1 ['X']).1

/-! Helper lemmas. -/

theorem updateSec_length (f : Section → Section) (l : List Section) (n : Nat) :
    (updateSec f l n).length = l.length := by
  induction l generalizing n with
  | nil => rfl
  | cons s rest ih => cases n <;> simp [updateSec, ih]

theorem updateSec_getElem?_ne (f : Section → Section) (l : List Section)
    (n j : Nat) (h : j ≠ n) : (updateSec f l n)[j]? = l[j]? := by
  induction l generalizing n j with
  | nil => rfl
  | cons s rest ih =>
    cases n with
    | zero =>
      cases j with
      | zero => exact absurd rfl h
      | succ j => simp [updateSec]
    | succ n =>
      cases j with
      | zero => simp [updateSec]
      | succ j =>
        simp only [updateSec, List.getElem?_cons_succ]
        exact ih n j (fun hh => h (by omega))

theorem printPairs_removeKey (k : Str) (l : List Pair) :
    printPairs (l.map (fun p => if p.key = k then ⟨[], []⟩ else p))
      = printPairs (l.filter (fun p => ¬ p.key = k)) := by
  induction l with
  | nil => rfl
  | cons p rest ih =>
    by_cases h : p.key = k
    · simp [printPairs, h, ih, List.filter_cons]
    · simp [printPairs, h, ih, List.filter_cons]

theorem updateSec_id (l : List Section) (n : Nat) : updateSec (fun s => s) l n = l := by
  induction l generalizing n with
  | nil => rfl
  | cons s rest ih => cases n <;> simp [updateSec, ih]

theorem updateSec_congr (f g : Section → Section) (h : ∀ s, f s = g s)
    (l : List Section) (n : Nat) : updateSec f l n = updateSec g l n := by
  induction l generalizing n with
  | nil => rfl
  | cons s rest ih => cases n <;> simp [updateSec, h, ih]

theorem updateSec_updateSec (f g : Section → Section) (l : List Section) (n : Nat) :
    updateSec f (updateSec g l n) n = updateSec (fun s => f (g s)) l n := by
  induction l generalizing n with
  | nil => rfl
  | cons s rest ih => cases n <;> simp [updateSec, ih]

theorem updateSec_append_last (f : Section → Section) (l : List Section) (x : Section) :
    updateSec f (l ++ [x]) l.length = l ++ [f x] := by
  induction l with
  | nil => rfl
  | cons s rest ih => simp [updateSec, ih]

theorem splitAtChar_notMem (ch : Char) (a b : Str) (h : ch ∉ a) :
    splitAtChar ch (a ++ ch :: b) = some (a, b) := by
  induction a with
  | nil => simp [splitAtChar]
  | cons c a ih =>
    have hc : c ≠ ch := fun hh => h (hh ▸ List.mem_cons_self c a)
    have ha : ch ∉ a := fun hm => h (List.mem_cons_of_mem c hm)
    simp [splitAtChar, hc, ih ha]

theorem splitLines_newline (xs rest : Str) (h : '\n' ∉ xs) :
    splitLines (xs ++ '\n' :: rest) = xs :: splitLines rest := by
  induction xs with
  | nil => simp [splitLines]
  | cons c cs ih =>
    have hc : c ≠ '\n' := fun hh => h (hh ▸ List.mem_cons_self c cs)
    have h2 : '\n' ∉ cs := fun hm => h (List.mem_cons_of_mem c hm)
    rw [List.cons_append]
    simp only [splitLines, if_neg hc, ih h2]

theorem findSecIdx_eq_none (name : Str) (l : List Section)
    (h : ∀ s ∈ l, s.sectionName ≠ name) : findSecIdx name l = none := by
  induction l with
  | nil => rfl
  | cons s rest ih =>
    simp [findSecIdx, h s (List.mem_cons_self s rest),
      ih (fun t ht => h t (List.mem_cons_of_mem s ht))]

theorem findSecIdx_append_last (name : Str) (l : List Section) (s : Section)
    (h : ∀ t ∈ l, t.sectionName ≠ name) (hs : s.sectionName = name) :
    findSecIdx name (l ++ [s]) = some l.length := by
  induction l with
  | nil => simp [findSecIdx, hs]
  | cons t rest ih =>
    simp [findSecIdx, h t (List.mem_cons_self t rest),
      ih (fun u hu => h u (List.mem_cons_of_mem t hu))]

theorem parseLines_cons (st : ParseState) (l : Str) (ls : List Str) :
    parseLines st (l :: ls) = parseLines (processLine st l) ls := rfl

theorem processLine_cons (st : ParseState) (c : Char) (rest : Str) :
    processLine st (c :: rest)
      = if c = ';' then st
        else if c = '[' then headerStep st rest
        else kvStep st (c :: rest) := rfl

theorem processLine_pairLine (doc : INIFILE) (i : Nat) (p : Pair) (hwf : wfPair p) :
    processLine (doc, some i) (pairLine p) = (docAddPair doc i p.key p.value, some i) := by
  obtain ⟨hne, _, _, heq, hsemi, hbr, _, _⟩ := hwf
  cases hk : p.key with
  | nil => exact absurd hk hne
  | cons k0 ktl =>
    have hk0semi : k0 ≠ ';' := fun hh => hsemi (by rw [hk, hh]; rfl)
    have hk0br : k0 ≠ '[' := fun hh => hbr (by rw [hk, hh]; rfl)
    have hkeq : '=' ∉ k0 :: ktl := hk ▸ heq
    have hsplit : splitAtChar '=' ((k0 :: ktl) ++ '=' :: p.value) = some (k0 :: ktl, p.value) :=
      splitAtChar_notMem '=' (k0 :: ktl) p.value hkeq
    rw [pairLine, hk, List.cons_append, processLine_cons, if_neg hk0semi, if_neg hk0br]
    rw [show k0 :: (ktl ++ '=' :: p.value) = (k0 :: ktl) ++ '=' :: p.value from rfl]
    simp only [kvStep, hsplit]

theorem parseLines_pairLines (ps : List Pair) (doc : INIFILE) (i : Nat) (rest : List Str)
    (hwf : ∀ p ∈ ps, wfPair p) :
    parseLines (doc, some i) (pairLines ps ++ rest)
      = parseLines (appendPairsAt doc i ps, some i) rest := by
  induction ps generalizing doc with
  | nil =>
    have : appendPairsAt doc i [] = doc := by
      rw [appendPairsAt]
      rw [updateSec_congr _ (fun s => s) (fun s => by simp), updateSec_id]
    rw [this]
    rfl
  | cons p ps ih =>
    have hp := hwf p (List.mem_cons_self p ps)
    rw [show pairLines (p :: ps) = pairLine p :: pairLines ps from rfl, List.cons_append,
      parseLines_cons, processLine_pairLine doc i p hp,
      ih (docAddPair doc i p.key p.value) (fun q hq => hwf q (List.mem_cons_of_mem p hq))]
    have heq : appendPairsAt (docAddPair doc i p.key p.value) i ps
        = appendPairsAt doc i (p :: ps) := by
      have hkey : p.key.take (MAX_KEY_LENGTH - 1) = p.key := List.take_of_length_le hp.2.1
      have hval : p.value.take (MAX_VALUE_LENGTH - 1) = p.value :=
        List.take_of_length_le hp.2.2.2.2.2.2.1
      rw [appendPairsAt, appendPairsAt, docAddPair]
      simp only [updateSec_updateSec]
      congr 1
      apply updateSec_congr
      intro s
      simp [ZINI_AddPair, hkey, hval]
    rw [heq]

theorem processLine_header_new (doc : INIFILE) (cur : Option Nat) (name : Str)
    (hbr : ']' ∉ name) (hfresh : ∀ s ∈ doc.sections, s.sectionName ≠ name) :
    processLine (doc, cur) (headerLine name)
      = ((ZINI_AddSection doc name).1, some doc.sections.length) := by
  have hsplit : splitAtChar ']' (name ++ [']']) = some (name, []) :=
    splitAtChar_notMem ']' name [] hbr
  have hfind : findSecIdx name doc.sections = none :=
    findSecIdx_eq_none name doc.sections hfresh
  rw [headerLine, processLine_cons, if_neg (by decide : ¬('[' : Char) = ';'),
    if_pos (rfl : ('[' : Char) = '[')]
  simp only [headerStep, hsplit, headerName, ZINI_FindSection, hfind]
  rfl

theorem processLine_header_existing (doc : INIFILE) (cur : Option Nat) (name : Str)
    (i : Nat) (hbr : ']' ∉ name) (hfind : findSecIdx name doc.sections = some i) :
    processLine (doc, cur) (headerLine name) = (doc, some i) := by
  have hsplit : splitAtChar ']' (name ++ [']']) = some (name, []) :=
    splitAtChar_notMem ']' name [] hbr
  rw [headerLine, processLine_cons, if_neg (by decide : ¬('[' : Char) = ';'),
    if_pos (rfl : ('[' : Char) = '[')]
  simp only [headerStep, hsplit, headerName, ZINI_FindSection, hfind]

theorem parseLines_secLines (s : Section) (doc : INIFILE) (cur : Option Nat)
    (rest : List Str) (hwf : wfSec s)
    (hfresh : ∀ t ∈ doc.sections, t.sectionName ≠ s.sectionName) :
    parseLines (doc, cur) (secLines s ++ rest)
      = parseLines (appendSec doc s, some doc.sections.length) rest := by
  obtain ⟨⟨hne, hlen, hnl, hbr⟩, hps⟩ := hwf
  rw [secLines]
  simp only [List.cons_append, List.append_assoc, List.singleton_append]
  rw [parseLines_cons, processLine_header_new doc cur s.sectionName hbr hfresh,
    parseLines_pairLines s.pairs _ _ _ hps]
  have hstep : appendPairsAt (ZINI_AddSection doc s.sectionName).1 doc.sections.length s.pairs
      = appendSec doc s := by
    have hname : s.sectionName.take (MAX_SECTION_LENGTH - 1) = s.sectionName :=
      List.take_of_length_le hlen
    rw [appendPairsAt, ZINI_AddSection, appendSec]
    simp only [updateSec_append_last, hname, List.nil_append]
  rw [hstep]
  rfl

theorem parseLines_secsLines (secs : List Section) (doc : INIFILE) (cur : Option Nat)
    (rest : List Str) (hwf : ∀ s ∈ secs, wfSec s)
    (hnodup : (namesOf secs).Nodup)
    (hfresh : ∀ s ∈ secs, ∀ t ∈ doc.sections, t.sectionName ≠ s.sectionName) :
    parseLines (doc, cur) (secsLines secs ++ rest)
      = parseLines (appendSecs doc secs, curAfter cur doc.sections.length secs) rest := by
  induction secs generalizing doc cur with
  | nil =>
    have h1 : appendSecs doc [] = doc := by
      simp [appendSecs]
    rw [h1]
    rfl
  | cons s tl ih =>
    simp only [namesOf, List.map_cons, List.nodup_cons] at hnodup
    rw [secsLines, List.append_assoc,
      parseLines_secLines s doc cur _ (hwf s (List.mem_cons_self s tl))
        (hfresh s (List.mem_cons_self s tl))]
    rw [ih (appendSec doc s) (some doc.sections.length)
      (fun t ht => hwf t (List.mem_cons_of_mem s ht))
      hnodup.2
      ?fresh]
    case fresh =>
      intro u hu t ht
      rw [appendSec] at ht
      rcases List.mem_append.1 ht with hold | hnew
      · exact hfresh u (List.mem_cons_of_mem s hu) t hold
      · rw [List.mem_singleton.1 hnew]
        intro hh
        exact hnodup.1 (by rw [hh]; exact List.mem_map_of_mem Section.sectionName hu)
    have h1 : appendSecs (appendSec doc s) tl = appendSecs doc (s :: tl) := by
      simp [appendSecs, appendSec]
    have h2 : curAfter (some doc.sections.length) (appendSec doc s).sections.length tl
        = curAfter cur doc.sections.length (s :: tl) := by
      cases tl with
      | nil => simp [curAfter, appendSec]
      | cons t ts => simp [curAfter, appendSec]; omega
    rw [h1, h2]

theorem splitLines_printPairs (ps : List Pair) (rest : Str)
    (hwf : ∀ p ∈ ps, wfPair p) :
    splitLines (printPairs ps ++ rest) = pairLines ps ++ splitLines rest := by
  induction ps with
  | nil => rfl
  | cons p tl ih =>
    have hw := hwf p (List.mem_cons_self p tl)
    have hkey : ¬(p.key = [] ∧ p.value = []) := fun hh => hw.1 hh.1
    have hnonl : '\n' ∉ p.key ++ '=' :: p.value := by
      intro hm
      rcases List.mem_append.1 hm with h1 | h2
      · exact hw.2.2.1 h1
      · rcases List.mem_cons.1 h2 with h3 | h4
        · exact absurd h3.symm (by decide)
        · exact hw.2.2.2.2.2.2.2 h4
    rw [printPairs, if_neg hkey]
    rw [show ((p.key ++ '=' :: p.value ++ ['\n']) ++ printPairs tl) ++ rest
        = (p.key ++ '=' :: p.value) ++ '\n' :: (printPairs tl ++ rest) by
      simp [List.append_assoc]]
    rw [splitLines_newline _ _ hnonl, ih (fun q hq => hwf q (List.mem_cons_of_mem p hq))]
    rfl

theorem splitLines_printSec (s : Section) (rest : Str) (hwf : wfSec s) :
    splitLines (printSec s ++ rest) = secLines s ++ splitLines rest := by
  obtain ⟨⟨hne, hlen, hnl, hbr⟩, hps⟩ := hwf
  have hnonl : '\n' ∉ '[' :: s.sectionName ++ [']'] := by
    intro hm
    rcases List.mem_cons.1 hm with h1 | h2
    · exact absurd h1.symm (by decide)
    · rcases List.mem_append.1 h2 with h3 | h4
      · exact hnl h3
      · exact absurd (List.mem_singleton.1 h4).symm (by decide)
  rw [printSec, if_neg hne]
  rw [show ('[' :: s.sectionName ++ ']' :: '\n' :: printPairs s.pairs ++ ['\n']) ++ rest
      = ('[' :: s.sectionName ++ [']']) ++ '\n' :: (printPairs s.pairs ++ '\n' :: rest) by
    simp [List.append_assoc]]
  rw [splitLines_newline _ _ hnonl, splitLines_printPairs s.pairs _ hps]
  rw [show ('\n' :: rest : Str) = [] ++ '\n' :: rest from rfl,
    splitLines_newline [] rest (by decide)]
  rw [secLines, headerLine]
  simp [List.append_assoc]

theorem splitLines_printSecs (secs : List Section) (rest : Str)
    (hwf : ∀ s ∈ secs, wfSec s) :
    splitLines (printSecs secs ++ rest) = secsLines secs ++ splitLines rest := by
  induction secs with
  | nil => rfl
  | cons s tl ih =>
    rw [printSecs, List.append_assoc,
      splitLines_printSec s _ (hwf s (List.mem_cons_self s tl)),
      ih (fun t ht => hwf t (List.mem_cons_of_mem s ht)), secsLines, List.append_assoc]

theorem splitLines_print (doc : INIFILE) (hwf : ∀ s ∈ doc.sections, wfSec s) :
    splitLines (ZINI_Print doc) = secsLines doc.sections ++ [[]] := by
  have h := splitLines_printSecs doc.sections [] hwf
  rw [List.append_nil] at h
  rw [ZINI_Print, h]
  rfl

theorem namesOf_updateSec (f : Section → Section) (l : List Section) (n : Nat)
    (h : ∀ s, (f s).sectionName = s.sectionName) :
    namesOf (updateSec f l n) = namesOf l := by
  induction l generalizing n with
  | nil => rfl
  | cons s rest ih =>
    cases n with
    | zero =>
      show (f s).sectionName :: namesOf rest = s.sectionName :: namesOf rest
      rw [h]
    | succ n =>
      show s.sectionName :: namesOf (updateSec f rest n) = s.sectionName :: namesOf rest
      rw [ih n]

theorem mem_updateSec (f : Section → Section) (l : List Section) (n : Nat)
    (x : Section) (h : x ∈ updateSec f l n) : x ∈ l ∨ ∃ s ∈ l, x = f s := by
  induction l generalizing n with
  | nil => exact absurd h (by simp [updateSec])
  | cons s rest ih =>
    cases n with
    | zero =>
      rcases List.mem_cons.1 h with h1 | h2
      · exact Or.inr ⟨s, List.mem_cons_self s rest, h1⟩
      · exact Or.inl (List.mem_cons_of_mem s h2)
    | succ n =>
      rcases List.mem_cons.1 h with h1 | h2
      · exact Or.inl (h1 ▸ List.mem_cons_self s rest)
      · rcases ih n h2 with h3 | ⟨t, ht, hx⟩
        · exact Or.inl (List.mem_cons_of_mem s h3)
        · exact Or.inr ⟨t, List.mem_cons_of_mem s ht, hx⟩

theorem build_wf_aux (cmds : List Cmd) (doc : INIFILE)
    (hc : ∀ c ∈ cmds, wfCmd c)
    (hnodup : (cmdNames cmds).Nodup)
    (hfresh : ∀ n ∈ cmdNames cmds, ∀ t ∈ doc.sections, t.sectionName ≠ n)
    (hdoc : wfDocSecs doc) :
    wfDocSecs (cmds.foldl buildStep doc) := by
  induction cmds generalizing doc with
  | nil => exact hdoc
  | cons c tl ih =>
    rw [List.foldl_cons]
    cases c with
    | addSection n =>
      have hn : wfName n := hc _ (List.mem_cons_self _ tl)
      have hntake : n.take (MAX_SECTION_LENGTH - 1) = n := List.take_of_length_le hn.2.1
      simp only [cmdNames, List.nodup_cons] at hnodup
      refine ih _ (fun d hd => hc d (List.mem_cons_of_mem _ hd)) hnodup.2 ?_ ?_
      · intro m hm t ht
        simp only [buildStep, ZINI_AddSection, hntake] at ht
        rcases List.mem_append.1 ht with hold | hnew
        · exact hfresh m (by rw [cmdNames]; exact List.mem_cons_of_mem n hm) t hold
        · rw [List.mem_singleton.1 hnew]
          intro hh
          simp only at hh
          exact hnodup.1 (hh ▸ hm)
      · constructor
        · intro s hs
          simp only [buildStep, ZINI_AddSection, hntake] at hs
          rcases List.mem_append.1 hs with hold | hnew
          · exact hdoc.1 s hold
          · rw [List.mem_singleton.1 hnew]
            exact ⟨hn, by intro p hp; exact absurd hp (List.not_mem_nil p)⟩
        · simp only [buildStep, ZINI_AddSection, hntake, namesOf, List.map_append,
            List.map_singleton]
          rw [List.nodup_append]
          refine ⟨hdoc.2, List.nodup_singleton _, ?_⟩
          intro a ha hb
          have han : a = n := List.mem_singleton.1 hb
          have hfr := hfresh n (by rw [cmdNames]; exact List.mem_cons_self n _)
          obtain ⟨t, ht, hta⟩ := List.mem_map.1 ha
          exact hfr t ht (hta.trans han)
    | addPair i k v =>
      have hp : wfPair ⟨k, v⟩ := hc _ (List.mem_cons_self _ tl)
      simp only [cmdNames] at hnodup hfresh
      refine ih _ (fun d hd => hc d (List.mem_cons_of_mem _ hd)) hnodup ?_ ?_
      · intro m hm t ht
        simp only [buildStep, docAddPair] at ht
        rcases mem_updateSec _ _ _ t ht with hold | ⟨s, hs, hts⟩
        · exact hfresh m hm t hold
        · rw [hts]
          simp only [ZINI_AddPair]
          exact hfresh m hm s hs
      · constructor
        · intro s hs
          simp only [buildStep, docAddPair] at hs
          rcases mem_updateSec _ _ _ s hs with hold | ⟨t, ht, hst⟩
          · exact hdoc.1 s hold
          · rw [hst]
            refine ⟨(hdoc.1 t ht).1, ?_⟩
            intro q hq
            simp only [ZINI_AddPair, List.mem_append] at hq
            rcases hq with hq1 | hq2
            · exact (hdoc.1 t ht).2 q hq1
            · rw [List.mem_singleton.1 hq2]
              have hk : k.take (MAX_KEY_LENGTH - 1) = k := List.take_of_length_le hp.2.1
              have hv : v.take (MAX_VALUE_LENGTH - 1) = v :=
                List.take_of_length_le hp.2.2.2.2.2.2.1
              rw [hk, hv]
              exact hp
        · have : namesOf (buildStep doc (Cmd.addPair i k v)).sections = namesOf doc.sections := by
            simp only [buildStep, docAddPair]
            exact namesOf_updateSec _ _ _ (fun s => rfl)
          rw [this]
          exact hdoc.2

/-! Claim theorems. -/

/-- Claim C2 (corrected, amended with `k ≠ ""`): for a non-empty key `k`,
`ZINI_RemovePair` leaves the pair count unchanged, and afterwards
`ZINI_GetValue` is absent, `ZINI_KeyExists` is false, and the section's
printed pair lines are exactly those of the pairs whose key differs from
`k` (no line for `k` is emitted). -/
theorem C2_removePair_amended (s : Section) (k : Str) (hk : k ≠ []) :
    (ZINI_RemovePair s k).pairs.length = s.pairs.length ∧
    ZINI_GetValue (ZINI_RemovePair s k) k = none ∧
    ZINI_KeyExists (ZINI_RemovePair s k) k = false ∧
    printPairs (ZINI_RemovePair s k).pairs
      = printPairs (s.pairs.filter (fun p => ¬ p.key = k)) := by
  refine ⟨by simp [ZINI_RemovePair], ?_, ?_, printPairs_removeKey k s.pairs⟩
  · have hfind : (ZINI_RemovePair s k).pairs.find? (fun p => p.key = k) = none := by
      rw [List.find?_eq_none]
      intro x hx
      simp only [ZINI_RemovePair, List.mem_map] at hx
      obtain ⟨p, _, rfl⟩ := hx
      by_cases hpk : p.key = k <;> simp [hpk, Ne.symm hk]
    simp [ZINI_GetValue, hfind]
  · simp only [ZINI_KeyExists, ZINI_RemovePair]
    rw [List.any_eq_false]
    intro x hx
    simp only [List.mem_map] at hx
    obtain ⟨p, _, rfl⟩ := hx
    by_cases hpk : p.key = k <;> simp [hpk, Ne.symm hk]

/-- Witness for C2 at the concrete section `S = {a=1}`, key `a`. -/
theorem C2_witness :
    (['a'] : Str) ≠ [] ∧
    ((ZINI_RemovePair sampleSec ['a']).pairs.length = sampleSec.pairs.length ∧
     ZINI_GetValue (ZINI_RemovePair sampleSec ['a']) ['a'] = none ∧
     ZINI_KeyExists (ZINI_RemovePair sampleSec ['a']) ['a'] = false ∧
     printPairs (ZINI_RemovePair sampleSec ['a']).pairs
       = printPairs (sampleSec.pairs.filter (fun p => ¬ p.key = ['a']))) :=
  ⟨by decide, C2_removePair_amended sampleSec ['a'] (by decide)⟩

/-- Counterexample to C2 as stated: with the empty string as key, after
`RemovePair(s, "")` on a section holding a tombstone, `GetValue(s, "")`
returns the tombstone's value (present, not absent) and `KeyExists` is
true, because tombstoned slots match the empty query key. -/
theorem C2_counterexample :
    ZINI_GetValue (ZINI_RemovePair (ZINI_RemovePair sampleSec ['a']) []) [] = some [] ∧
    ZINI_KeyExists (ZINI_RemovePair (ZINI_RemovePair sampleSec ['a']) []) [] = true := by
  decide

/-- Claim C3 (corrected): `ZINI_SetValue` has no `break` in its loop, so it
overwrites the value of EVERY pair whose key matches (truncated to the
bound), and leaves pairs with a different key unchanged; the pair count is
unchanged. -/
theorem C3_setValue_amended (s : Section) (k v : Str) (i : Nat) :
    (ZINI_SetValue s k v).pairs.length = s.pairs.length ∧
    (ZINI_SetValue s k v).pairs[i]? = s.pairs[i]?.map
      (fun p => if p.key = k then { p with value := v.take (MAX_VALUE_LENGTH - 1) } else p) := by
  constructor
  · simp [ZINI_SetValue]
  · simp [ZINI_SetValue]

/-- Counterexample to C3 as stated: on `{k=a, k=b}`, `SetValue(s, k, c)`
also rewrites the SECOND pair with key `k`, which the claim says is left
unchanged. -/
theorem C3_counterexample :
    (ZINI_SetValue dupKeySec ['k'] ['c']).pairs[1]? = some ⟨['k'], ['c']⟩ ∧
    (ZINI_SetValue dupKeySec ['k'] ['c']).pairs[1]? ≠ some ⟨['k'], ['b']⟩ := by
  decide

/-- Claim C4 (corrected): `ZINI_Clean` empties the section storage and
zeroes the count, and a second `Clean` is safe and changes nothing — but it
does NOT reset `isModified` to false (the C function never writes it), so
the result is the `ZINI_Init` state only up to the modified flag. -/
theorem C4_clean_amended (doc : INIFILE) :
    ZINI_Clean doc = { sections := [], isModified := doc.isModified } ∧
    ZINI_Clean (ZINI_Clean doc) = ZINI_Clean doc ∧
    (ZINI_Clean doc).sections.length = 0 := ⟨rfl, rfl, rfl⟩

/-- Counterexample to C4 as stated: cleaning a modified document leaves
`isModified` true, so the result differs from the state `ZINI_Init`
establishes (`isModified = false`). -/
theorem C4_counterexample :
    (ZINI_Clean (ZINI_AddSection ZINI_Init ['A']).1).isModified = true ∧
    ZINI_Clean (ZINI_AddSection ZINI_Init ['A']).1 ≠ ZINI_Init := by decide

/-- Claim C6 (confirmed): opening a missing source succeeds and leaves the
document exactly as it was. -/
theorem C6_open_missing (doc : INIFILE) : ZINI_Open doc Source.missing = (doc, true) := rfl

/-- Claim C7 (confirmed): `ZINI_Save` on an openable destination writes
exactly `ZINI_Print`'s bytes, clears `isModified` and returns true; on a
destination that cannot be opened it returns false and leaves the document
(including `isModified`) unchanged, writing nothing. -/
theorem C7_save (doc : INIFILE) :
    ZINI_Save doc true = { doc := { doc with isModified := false }, ret := true,
                           written := some (ZINI_Print doc) } ∧
    ZINI_Save doc false = { doc := doc, ret := false, written := none } := by
  constructor <;> simp [ZINI_Save]

/-- Claim C8 (code-bug evaluation): `ZINI_Save` has no null check on the
document, so with a null document and an openable destination it
dereferences the null pointer at `iniFile->isModified = false` (undefined
behaviour, `none`); `ZINI_SetValue` never checks `newValue`, so with a null
new value and a matching key it passes the null pointer to `strncpy`
(undefined behaviour, `none`). Neither failure is reported-and-returned. -/
theorem C8_null_crash :
    ZINI_SaveC none true = none ∧
    ZINI_SetValueC nullProbeSec ['k'] none = none := ⟨rfl, by decide⟩

/-- Claim C9 (confirmed): a successful `ZINI_AddSection` sets the owning
document's `isModified`; `ZINI_AddPair` (seen from the owning document)
never changes `isModified`, the section count, or any section other than
the one it targets. -/
theorem C9_modified_asymmetry (doc : INIFILE) (name : Str) (i : Nat) (k v : Str) :
    ((ZINI_AddSection doc name).1).isModified = true ∧
    (docAddPair doc i k v).isModified = doc.isModified ∧
    (docAddPair doc i k v).sections.length = doc.sections.length ∧
    ∀ j, j ≠ i → (docAddPair doc i k v).sections[j]? = doc.sections[j]? := by
  refine ⟨rfl, rfl, ?_, ?_⟩
  · simp [docAddPair, updateSec_length]
  · intro j hj
    exact updateSec_getElem?_ne _ doc.sections i j hj

/-- Witness for C9 at a concrete document, section index 0, and frame
index 1. -/
theorem C9_witness :
    (1 : Nat) ≠ 0 ∧
    (docAddPair ZINI_Init 0 ['k'] ['v']).sections[1]? = ZINI_Init.sections[1]? :=
  ⟨by decide, (C9_modified_asymmetry ZINI_Init ['A'] 0 ['k'] ['v']).2.2.2 1 (by decide)⟩

/-- Claim C10 (corrected): a query with the empty key does see empty-keyed
slots — `KeyExists(s, "")` is true and `GetValue(s, "")` is present — but it
returns the value of the FIRST pair whose key is empty (the empty string
when that pair is a tombstone), not necessarily a tombstone's value. -/
theorem C10_emptyKey_amended (s : Section) (p : Pair)
    (h : s.pairs.find? (fun q => q.key = []) = some p) :
    ZINI_KeyExists s [] = true ∧ ZINI_GetValue s [] = some p.value := by
  constructor
  · have hm := List.mem_of_find?_eq_some h
    have hp := List.find?_some h
    rw [ZINI_KeyExists, List.any_eq_true]
    exact ⟨p, hm, hp⟩
  · simp [ZINI_GetValue, h]

/-- Witness for C10 at the tombstoned sample section. -/
theorem C10_witness :
    (ZINI_RemovePair sampleSec ['a']).pairs.find? (fun q => q.key = []) = some ⟨[], []⟩ ∧
    (ZINI_KeyExists (ZINI_RemovePair sampleSec ['a']) [] = true ∧
     ZINI_GetValue (ZINI_RemovePair sampleSec ['a']) [] = some ([] : Str)) :=
  ⟨by decide, C10_emptyKey_amended (ZINI_RemovePair sampleSec ['a']) ⟨[], []⟩ (by decide)⟩

/-- Counterexample to C10 as stated: a section can contain a tombstoned
pair while an earlier non-tombstone pair also has an empty key; then
`GetValue(s, "")` returns that pair's (non-empty) value, not the
tombstone's empty value. -/
theorem C10_counterexample :
    (⟨[], []⟩ : Pair) ∈ (ZINI_RemovePair emptyKeySec ['a']).pairs ∧
    ZINI_GetValue (ZINI_RemovePair emptyKeySec ['a']) [] = some ['x'] ∧
    ZINI_GetValue (ZINI_RemovePair emptyKeySec ['a']) [] ≠ some ([] : Str) := by decide

/-- Claim C1 (corrected, amended with wellformedness conditions): for a
document built purely from `AddSection`/`AddPair` calls whose section names
are non-empty, pairwise distinct, within the bound, and free of `]` and
newline, and whose keys are non-empty, within the bound, free of `=` and
newline, and do not begin with `[` or `;`, with values within the bound and
free of newline — printing the document (the exact bytes `Save` writes) and
opening that text into a freshly initialized document reproduces the same
section list: same names, same pairs, insertion order and duplicate keys
preserved. -/
theorem C1_roundTrip_amended (cmds : List Cmd)
    (hc : ∀ c ∈ cmds, wfCmd c) (hnodup : (cmdNames cmds).Nodup) :
    (ZINI_Open ZINI_Init (Source.present (ZINI_Print (build cmds)))).1.sections
      = (build cmds).sections := by
  have hwf : wfDocSecs (build cmds) := build_wf_aux cmds ZINI_Init hc hnodup
    (fun n _ t ht => absurd ht (List.not_mem_nil t))
    ⟨fun s hs => absurd hs (List.not_mem_nil s), List.nodup_nil⟩
  simp only [ZINI_Open]
  rw [splitLines_print _ hwf.1,
    parseLines_secsLines (build cmds).sections ZINI_Init none [[]] hwf.1 hwf.2
      (fun s _ t ht => absurd ht (List.not_mem_nil t))]
  show (appendSecs ZINI_Init (build cmds).sections).sections = (build cmds).sections
  simp [appendSecs, ZINI_Init]

/-- Witness for C1 on the concrete build `[addSection A, addPair 0 k v]`. -/
theorem C1_witness :
    ((∀ c ∈ okCmds, wfCmd c) ∧ (cmdNames okCmds).Nodup) ∧
    (ZINI_Open ZINI_Init (Source.present (ZINI_Print (build okCmds)))).1.sections
      = (build okCmds).sections :=
  ⟨⟨by decide, by decide⟩, C1_roundTrip_amended okCmds (by decide) (by decide)⟩

/-- Counterexample to C1 as stated: a document built with two `AddSection`
calls sharing the name `A` (all names and keys non-empty) has two sections,
but saving and reopening merges them into one — the reparsed document does
not have the same sections. -/
theorem C1_counterexample :
    (∀ c ∈ dupSecCmds, wfCmd c) ∧
    (build dupSecCmds).sections.length = 2 ∧
    (ZINI_Open ZINI_Init (Source.present (ZINI_Print (build dupSecCmds)))).1.sections.length
      = 1 := by decide

/-- Claim C5 (corrected, amended): for a document holding no section named
`X`, and a source with two `[X]` headers (X non-empty, within bound, free of
`]` and newline) each followed by wellformed key/value lines, opening
produces the original sections plus exactly one section named `X` whose
pairs are those under the first header followed by those under the second
(file order); only the first header appends a section, the second reuses
it. -/
theorem C5_merge_amended (doc : INIFILE) (X : Str) (ps1 ps2 : List Pair)
    (hX : wfName X) (h1 : ∀ p ∈ ps1, wfPair p) (h2 : ∀ p ∈ ps2, wfPair p)
    (hfresh : ∀ s ∈ doc.sections, s.sectionName ≠ X) :
    (ZINI_Open doc (Source.present (twoHeaderText X ps1 ps2))).1.sections
      = doc.sections ++ [{ sectionName := X, pairs := ps1 ++ ps2 }] ∧
    ((ZINI_Open doc (Source.present (twoHeaderText X ps1 ps2))).1.sections.countP
      (fun s => s.sectionName = X)) = 1 := by
  obtain ⟨hne, hlen, hnl, hbr⟩ := hX
  have hXtake : X.take (MAX_SECTION_LENGTH - 1) = X := List.take_of_length_le hlen
  have hnonl : '\n' ∉ '[' :: (X ++ [']']) := by
    intro hm
    rcases List.mem_cons.1 hm with hh | hh
    · exact absurd hh.symm (by decide)
    · rcases List.mem_append.1 hh with h3 | h4
      · exact hnl h3
      · exact absurd (List.mem_singleton.1 h4).symm (by decide)
  have hlines : splitLines (twoHeaderText X ps1 ps2)
      = headerLine X :: (pairLines ps1 ++ (headerLine X :: (pairLines ps2 ++ [[]]))) := by
    rw [twoHeaderText]
    rw [show (('[' :: X ++ ']' :: '\n' :: printPairs ps1)
          ++ ('[' :: X ++ ']' :: '\n' :: printPairs ps2) : Str)
        = ('[' :: (X ++ [']'])) ++ '\n'
            :: (printPairs ps1 ++ (('[' :: (X ++ [']'])) ++ '\n' :: printPairs ps2)) by
      simp [List.append_assoc]]
    rw [splitLines_newline _ _ hnonl, splitLines_printPairs ps1 _ h1,
      splitLines_newline _ _ hnonl,
      show printPairs ps2 = printPairs ps2 ++ [] from (List.append_nil _).symm,
      splitLines_printPairs ps2 [] h2]
    rw [headerLine]
    rfl
  have hfinal : (ZINI_Open doc (Source.present (twoHeaderText X ps1 ps2))).1.sections
      = doc.sections ++ [{ sectionName := X, pairs := ps1 ++ ps2 }] := by
    simp only [ZINI_Open]
    rw [hlines, parseLines_cons, processLine_header_new doc none X hbr hfresh,
      parseLines_pairLines ps1 _ _ _ h1]
    have hD1 : appendPairsAt (ZINI_AddSection doc X).1 doc.sections.length ps1
        = { sections := doc.sections ++ [{ sectionName := X, pairs := ps1 }],
            isModified := true } := by
      rw [appendPairsAt, ZINI_AddSection]
      simp only [updateSec_append_last, hXtake, List.nil_append]
    rw [hD1, parseLines_cons]
    have hfind : findSecIdx X (doc.sections ++ [{ sectionName := X, pairs := ps1 }])
        = some doc.sections.length := findSecIdx_append_last X doc.sections _ hfresh rfl
    rw [processLine_header_existing
        ({ sections := doc.sections ++ [{ sectionName := X, pairs := ps1 }],
           isModified := true }) (some doc.sections.length) X doc.sections.length hbr hfind,
      parseLines_pairLines ps2 _ _ _ h2]
    have hD2 : appendPairsAt
        ({ sections := doc.sections ++ [{ sectionName := X, pairs := ps1 }],
           isModified := true } : INIFILE) doc.sections.length ps2
        = { sections := doc.sections ++ [{ sectionName := X, pairs := ps1 ++ ps2 }],
            isModified := true } := by
      rw [appendPairsAt]
      simp only [updateSec_append_last]
    rw [hD2]
    rfl
  refine ⟨hfinal, ?_⟩
  rw [hfinal, List.countP_append]
  have h0 : doc.sections.countP (fun s => s.sectionName = X) = 0 := by
    rw [List.countP_eq_zero]
    intro s hs
    simpa using hfresh s hs
  rw [h0]
  simp

/-- Witness for C5: a fresh document and the source `[X] a=1 [X] b=2`. -/
theorem C5_witness :
    (wfName ['X'] ∧ (∀ p ∈ [(⟨['a'], ['1']⟩ : Pair)], wfPair p) ∧
     (∀ p ∈ [(⟨['b'], ['2']⟩ : Pair)], wfPair p) ∧
     (∀ s ∈ ZINI_Init.sections, s.sectionName ≠ ['X'])) ∧
    ((ZINI_Open ZINI_Init
        (Source.present (twoHeaderText ['X'] [⟨['a'], ['1']⟩] [⟨['b'], ['2']⟩]))).1.sections
      = ZINI_Init.sections
          ++ [{ sectionName := ['X'],
                pairs := [(⟨['a'], ['1']⟩ : Pair)] ++ [⟨['b'], ['2']⟩] }] ∧
     ((ZINI_Open ZINI_Init
        (Source.present (twoHeaderText ['X'] [⟨['a'], ['1']⟩] [⟨['b'], ['2']⟩]))).1.sections.countP
          (fun s => s.sectionName = ['X'])) = 1) :=
  ⟨⟨by decide, by decide, by decide, by decide⟩,
   C5_merge_amended ZINI_Init ['X'] [⟨['a'], ['1']⟩] [⟨['b'], ['2']⟩]
     (by decide) (by decide) (by decide) (by decide)⟩

/-- Counterexample to C5 as stated: on a document that already holds two
sections named `X`, opening a source with two `[X]` headers leaves TWO
sections named `X` (the pairs merge into the first), not exactly one. -/
theorem C5_counterexample :
    ((ZINI_Open twoXDoc
        (Source.present (twoHeaderText ['X'] [⟨['a'], ['1']⟩] [⟨['b'], ['2']⟩]))).1.sections.countP
      (fun s => s.sectionName = ['X'])) = 2 := by decide

end ZINI
